import Mathlib

/-!
Shallow embedding of `qiskit/assembler/assemble_circuits.py`.

The Python function `assemble_circuits` walks a list of circuits, builds flat
qubit/clbit label tables from the register declarations, lowers each operation
(resolving register-relative bit references to flat indices and converting
register-valued conditions into synthesized `bfunc` instructions), and packs
everything into a `QasmQobj` bundle.  Failures of the Python `list.index`
lookups (an operation referencing a bit absent from its circuit's tables) are
modelled with `Except`.
-/

/-- A flat address label `[register-name, offset]` as appended to
`qubit_labels` / `clbit_labels` in the source. -/
abbrev Label := String × Nat

/-- A quantum or classical register: a name and a bit count. -/
structure Register where
  name : String
  size : Nat
deriving DecidableEq

/-- A circuit operation as seen by `assemble_circuits`: its opcode name and the
optional `control` attribute `(register, integer value)` carried by
register-conditioned operations. -/
structure Op where
  name : String
  control : Option (Register × Nat) := none
deriving DecidableEq

/-- One entry `(op, qargs, cargs)` of `circuit.data`: the operation together
with its ordered qubit references and classical-bit references, each a
`(register, index)` pair. -/
structure OpContext where
  op : Op
  qargs : List (Register × Nat) := []
  cargs : List (Register × Nat) := []
deriving DecidableEq

/-- A circuit: name, ordered quantum registers, ordered classical registers and
the ordered operation list. -/
structure Circuit where
  name : String
  qregs : List Register := []
  cregs : List Register := []
  data : List OpContext := []
deriving DecidableEq

/-- The dynamically-typed `register` attribute of a `QasmQobjInstruction`: the
source stores a list of flat clbit indices on measurements but a single
conditional-slot index on synthesized `bfunc` instructions. -/
inductive RegisterField where
  | idxList : List Nat → RegisterField
  | slot : Nat → RegisterField
deriving DecidableEq

/-- A lowered instruction.  Optional fields model Python attributes that are
only present when assigned (`_control` is modelled by `control`). -/
structure QasmQobjInstruction where
  name : String
  qubits : Option (List Nat) := none
  memory : Option (List Nat) := none
  register : Option RegisterField := none
  conditional : Option Nat := none
  mask : Option String := none
  relation : Option String := none
  val : Option String := none
  control : Option (Register × Nat) := none
deriving DecidableEq

/-- `op.assemble()`: the base lowered form, carrying over the `_control`
attribute when the operation has one. -/
def Op.assemble (op : Op) : QasmQobjInstruction :=
  { name := op.name, control := op.control }

/-- Python `labels.index(key)`: the first index of `key`, raising (modelled as
`Except.error`) when `key` is absent. -/
def lookupIdx (labels : List Label) (key : Label) : Except String Nat :=
  if key ∈ labels then .ok (labels.indexOf key) else .error "bit not in labels"

/-- One uppercase hexadecimal digit, as produced by the `"%X"` format. -/
def hexDigitChar (d : Nat) : Char :=
  if d < 10 then Char.ofNat (48 + d) else Char.ofNat (55 + d)

/-- Digit list of `n` in base 16 (most significant first), with explicit fuel
so that the definition is structurally recursive. -/
def hexChars : Nat → Nat → List Char
  | 0, _ => []
  | fuel + 1, n =>
    if n < 16 then [hexDigitChar n]
    else hexChars fuel (n / 16) ++ [hexDigitChar (n % 16)]

/-- The Python format `"0x%X" % n`. -/
def hexFmt (n : Nat) : String :=
  "0x" ++ String.mk (hexChars (n + 1) n)

/-- The body of the mask/value accumulation loop (source lines 106-109): for a
clbit label belonging to the condition's register, OR bit 1 into `mask` at the
label's flat index (its first index in `clbit_labels`), and OR the condition
value's bit at the label's intra-register offset into `val` at the same flat
index. -/
def condStep (clbit_labels : List Label) (ctrl_reg_name : String) (ctrl_val : Nat)
    (mv : Nat × Nat) (clbit : Label) : Nat × Nat :=
  if clbit.1 = ctrl_reg_name then
    (mv.1 ||| 1 <<< clbit_labels.indexOf clbit,
     mv.2 ||| ((ctrl_val >>> clbit.2) &&& 1) <<< clbit_labels.indexOf clbit)
  else mv

/-- The mask/value accumulation loop of the conditional conversion, starting
from `mask = 0`, `val = 0` (source lines 104-109). -/
def condMaskVal (clbit_labels : List Label) (ctrl_reg_name : String)
    (ctrl_val : Nat) : Nat × Nat :=
  clbit_labels.foldl (condStep clbit_labels ctrl_reg_name ctrl_val) (0, 0)

/-- The synthesized `bfunc` conversion instruction (source lines 112-116). -/
def mkBfunc (clbit_labels : List Label) (ctrl_reg : Register) (ctrl_val : Nat)
    (conditional_reg_idx : Nat) : QasmQobjInstruction :=
  { name := "bfunc",
    mask := some (hexFmt (condMaskVal clbit_labels ctrl_reg.name ctrl_val).1),
    relation := some "==",
    val := some (hexFmt (condMaskVal clbit_labels ctrl_reg.name ctrl_val).2),
    register := some (.slot conditional_reg_idx) }

/-- Source lines 86-89: if the operation has qubit references, resolve each
against `qubit_labels` and attach the flat index list. -/
def addQubitIndices (qubit_labels : List Label) (opc : OpContext)
    (instruction : QasmQobjInstruction) : Except String QasmQobjInstruction :=
  if opc.qargs.isEmpty then .ok instruction
  else
    match opc.qargs.mapM (fun qubit => lookupIdx qubit_labels (qubit.1.name, qubit.2)) with
    | .error e => .error e
    | .ok qubit_indices => .ok { instruction with qubits := some qubit_indices }

/-- Source lines 90-97: if the operation has classical-bit references, resolve
them into `memory`; in a conditional experiment a measurement additionally gets
the same indices as its `register` field. -/
def addClbitIndices (clbit_labels : List Label) (is_conditional_experiment : Bool)
    (opc : OpContext) (instruction : QasmQobjInstruction) :
    Except String QasmQobjInstruction :=
  if opc.cargs.isEmpty then .ok instruction
  else
    match opc.cargs.mapM (fun clbit => lookupIdx clbit_labels (clbit.1.name, clbit.2)) with
    | .error e => .error e
    | .ok clbit_indices =>
      if instruction.name = "measure" ∧ is_conditional_experiment = true then
        .ok { instruction with memory := some clbit_indices,
                               register := some (.idxList clbit_indices) }
      else .ok { instruction with memory := some clbit_indices }

/-- Source lines 102-124: when the instruction carries a `_control`, synthesize
the `bfunc` on a fresh conditional slot, gate the instruction on that slot,
delete the `_control`, and append both; otherwise append the instruction. -/
def addConditional (clbit_labels : List Label) (memory_slots : Nat)
    (acc : List QasmQobjInstruction × Nat) (instruction : QasmQobjInstruction) :
    List QasmQobjInstruction × Nat :=
  match instruction.control with
  | none => (acc.1 ++ [instruction], acc.2)
  | some (ctrl_reg, ctrl_val) =>
    let conditional_reg_idx := memory_slots + acc.2
    (acc.1 ++ [mkBfunc clbit_labels ctrl_reg ctrl_val conditional_reg_idx,
               { instruction with conditional := some conditional_reg_idx,
                                  control := none }],
     acc.2 + 1)

/-- The body of the per-operation loop (source lines 80-124), acting on the
state `(instructions, max_conditional_idx)`. -/
def lowerOp (qubit_labels clbit_labels : List Label) (memory_slots : Nat)
    (is_conditional_experiment : Bool) (acc : List QasmQobjInstruction × Nat)
    (opc : OpContext) : Except String (List QasmQobjInstruction × Nat) :=
  match addQubitIndices qubit_labels opc opc.op.assemble with
  | .error e => .error e
  | .ok ins =>
    match addClbitIndices clbit_labels is_conditional_experiment opc ins with
    | .error e => .error e
    | .ok ins => .ok (addConditional clbit_labels memory_slots acc ins)

/-- The labels contributed by one register: `(name, 0) .. (name, size-1)`. -/
def labelsOf (reg : Register) : List Label :=
  (List.range reg.size).map (fun j => (reg.name, j))

/-- Source lines 47-56: the flat label table, registers concatenated in
declaration order, offsets ascending within each register. -/
def buildLabels (regs : List Register) : List Label :=
  regs.foldl (fun labels reg => labels ++ labelsOf reg) []

/-- Source lines 51/56: the accumulated `n_qubits` / `memory_slots` count. -/
def totalSize (regs : List Register) : Nat :=
  regs.foldl (fun n reg => n + reg.size) 0

/-- Source lines 48/53: the `qreg_sizes` / `creg_sizes` header lists. -/
def regSizes (regs : List Register) : List (String × Nat) :=
  regs.map (fun reg => (reg.name, reg.size))

/-- The per-experiment header (source lines 60-66). -/
structure QobjExperimentHeader where
  qubit_labels : List Label
  n_qubits : Nat
  qreg_sizes : List (String × Nat)
  clbit_labels : List Label
  memory_slots : Nat
  creg_sizes : List (String × Nat)
  name : String
deriving DecidableEq

/-- The per-experiment config (source line 68). -/
structure QasmQobjExperimentConfig where
  n_qubits : Nat
  memory_slots : Nat
deriving DecidableEq

/-- One assembled experiment (source lines 126-127). -/
structure QasmQobjExperiment where
  instructions : List QasmQobjInstruction
  header : QobjExperimentHeader
  config : QasmQobjExperimentConfig
deriving DecidableEq

/-- Source line 76: `any(op.control for (op, qargs, cargs) in circuit.data)`. -/
def isConditionalExperiment (circuit : Circuit) : Bool :=
  circuit.data.any fun opc => opc.op.control.isSome

/-- The whole per-circuit body of the source's main loop (lines 38-127). -/
def assembleExperiment (circuit : Circuit) : Except String QasmQobjExperiment :=
  let qubit_labels := buildLabels circuit.qregs
  let clbit_labels := buildLabels circuit.cregs
  let n_qubits := totalSize circuit.qregs
  let memory_slots := totalSize circuit.cregs
  match circuit.data.foldlM
      (lowerOp qubit_labels clbit_labels memory_slots (isConditionalExperiment circuit))
      ([], 0) with
  | .error e => .error e
  | .ok res =>
    .ok { instructions := res.1,
          header := { qubit_labels := qubit_labels, n_qubits := n_qubits,
                      qreg_sizes := regSizes circuit.qregs,
                      clbit_labels := clbit_labels, memory_slots := memory_slots,
                      creg_sizes := regSizes circuit.cregs, name := circuit.name },
          config := { n_qubits := n_qubits, memory_slots := memory_slots } }

/-- The caller-supplied run configuration: the two sizing fields plus an opaque
bag of other options. -/
structure RunConfig where
  n_qubits : Option Nat := none
  memory_slots : Option Nat := none
  other : List (String × String) := []
deriving DecidableEq

/-- The bundle config.  `QasmQobjConfig()` with no arguments leaves every field
at its default. -/
structure QasmQobjConfig where
  n_qubits : Option Nat := none
  memory_slots : Option Nat := none
  other : List (String × String) := []
deriving DecidableEq

/-- Source lines 30-32: `QasmQobjConfig(**run_config.to_dict())` when a run
config is supplied, the empty config otherwise. -/
def configOfRun : Option RunConfig → QasmQobjConfig
  | none => {}
  | some rc => { n_qubits := rc.n_qubits, memory_slots := rc.memory_slots,
                 other := rc.other }

/-- The assembled bundle (source lines 136-139). -/
structure QasmQobj where
  qobj_id : String
  config : QasmQobjConfig
  experiments : List QasmQobjExperiment
  header : String
deriving DecidableEq

/-- Source lines 36/128-129: the running maximum of the per-circuit qubit
counts, updated by `if n_qubits > max_n_qubits`. -/
def maxNQubits (circuits : List Circuit) : Nat :=
  circuits.foldl (fun m c => if totalSize c.qregs > m then totalSize c.qregs else m) 0

/-- Source lines 37/130-131: the running maximum of the per-circuit memory-slot
counts. -/
def maxMemorySlots (circuits : List Circuit) : Nat :=
  circuits.foldl (fun m c => if totalSize c.cregs > m then totalSize c.cregs else m) 0

/-- The top-level `assemble_circuits` (source lines 18-139). -/
def assemble_circuits (circuits : List Circuit) (run_config : Option RunConfig)
    (qobj_id : String) (qobj_header : String) : Except String QasmQobj :=
  match circuits.mapM assembleExperiment with
  | .error e => .error e
  | .ok experiments =>
    let qobj_config := configOfRun run_config
    .ok { qobj_id := qobj_id,
          config := { qobj_config with
                      memory_slots := some (maxMemorySlots circuits),
                      n_qubits := some (maxNQubits circuits) },
          experiments := experiments,
          header := qobj_header }

/-- The conditional-test slot indices appearing in an instruction list, in
order: the `register` fields of the synthesized `bfunc` instructions (the only
instructions whose `register` holds a single slot). -/
def condTestSlots (instructions : List QasmQobjInstruction) : List Nat :=
  instructions.filterMap fun ins =>
    match ins.register with
    | some (.slot n) => some n
    | _ => none

/-- The number of conditional operations in an operation list. -/
def countConditionals (data : List OpContext) : Nat :=
  data.countP fun opc => opc.op.control.isSome

/-! ### Basic lemmas about the `Except` plumbing -/

theorem exceptOk_bind {α β : Type _} (a : α) (f : α → Except String β) :
    (Except.ok a >>= f : Except String β) = f a := rfl

theorem exceptError_bind {α β : Type _} (e : String) (f : α → Except String β) :
    (Except.error e >>= f : Except String β) = Except.error e := rfl

theorem exceptPure_eq_ok {α : Type _} (a : α) : (pure a : Except String α) = .ok a := rfl

theorem lookupIdx_ok_mem {labels : List Label} {key : Label} {i : Nat}
    (h : lookupIdx labels key = .ok i) : key ∈ labels ∧ i = labels.indexOf key := by
  unfold lookupIdx at h
  split at h
  · exact ⟨by assumption, by injection h; omega⟩
  · exact absurd h (by simp)

theorem lookupIdx_ok_of_mem {labels : List Label} {key : Label} (h : key ∈ labels) :
    lookupIdx labels key = .ok (labels.indexOf key) := by
  unfold lookupIdx
  simp [h]

theorem mapM_ok_forall₂ {α β : Type _} (f : α → Except String β) :
    ∀ {l : List α} {l' : List β}, l.mapM f = .ok l' →
      List.Forall₂ (fun a b => f a = .ok b) l l' := by
  intro l
  induction l with
  | nil =>
    intro l' h
    rw [List.mapM_nil, exceptPure_eq_ok] at h
    injection h with h
    rw [← h]
    exact List.Forall₂.nil
  | cons a t ih =>
    intro l' h
    rw [List.mapM_cons] at h
    cases ha : f a with
    | error e => rw [ha, exceptError_bind] at h; exact absurd h (by simp)
    | ok b =>
      rw [ha, exceptOk_bind] at h
      cases ht : t.mapM f with
      | error e => rw [ht, exceptError_bind] at h; exact absurd h (by simp)
      | ok bs =>
        rw [ht, exceptOk_bind, exceptPure_eq_ok] at h
        injection h with h
        rw [← h]
        exact List.Forall₂.cons ha (ih ht)

theorem forall₂_mem_left {α β : Type _} {R : α → β → Prop} :
    ∀ {l : List α} {l' : List β}, List.Forall₂ R l l' → ∀ a ∈ l, ∃ b ∈ l', R a b := by
  intro l l' h
  induction h with
  | nil => intro a ha; exact absurd ha (by simp)
  | cons hR _ ih =>
    intro x hx
    rcases List.mem_cons.mp hx with hx | hx
    · exact ⟨_, List.mem_cons_self _ _, hx ▸ hR⟩
    · rcases ih x hx with ⟨b, hb, hRb⟩
      exact ⟨b, List.mem_cons_of_mem _ hb, hRb⟩

theorem mapM_ok_of_forall_ok {α β : Type _} (f : α → Except String β) :
    ∀ (l : List α), (∀ a ∈ l, ∃ b, f a = .ok b) → ∃ l', l.mapM f = .ok l' := by
  intro l
  induction l with
  | nil => intro _; exact ⟨[], rfl⟩
  | cons a t ih =>
    intro h
    rcases h a (List.mem_cons_self _ _) with ⟨b, hb⟩
    rcases ih (fun x hx => h x (List.mem_cons_of_mem _ hx)) with ⟨bs, hbs⟩
    exact ⟨b :: bs, by rw [List.mapM_cons, hb, exceptOk_bind, hbs, exceptOk_bind,
      exceptPure_eq_ok]⟩

/-! ### Field-tracking lemmas for the lowering stages -/

theorem addQubitIndices_ok_fields {ql : List Label} {opc : OpContext}
    {ins ins' : QasmQobjInstruction} (h : addQubitIndices ql opc ins = .ok ins') :
    ins'.name = ins.name ∧ ins'.memory = ins.memory ∧ ins'.register = ins.register ∧
    ins'.conditional = ins.conditional ∧ ins'.mask = ins.mask ∧
    ins'.relation = ins.relation ∧ ins'.val = ins.val ∧ ins'.control = ins.control ∧
    (opc.qargs.isEmpty = false →
      ∃ l, opc.qargs.mapM (fun qubit => lookupIdx ql (qubit.1.name, qubit.2)) = .ok l ∧
        ins'.qubits = some l) := by
  unfold addQubitIndices at h
  split at h
  · injection h with h
    subst h
    refine ⟨rfl, rfl, rfl, rfl, rfl, rfl, rfl, rfl, ?_⟩
    intro hne
    simp_all
  · rename_i hne
    split at h
    · exact absurd h (by simp)
    · rename_i l hl
      injection h with h
      subst h
      exact ⟨rfl, rfl, rfl, rfl, rfl, rfl, rfl, rfl,
        fun _ => ⟨l, hl, rfl⟩⟩

theorem addQubitIndices_ok_exists {ql : List Label} {opc : OpContext}
    (ins : QasmQobjInstruction)
    (hq : ∀ a ∈ opc.qargs, (a.1.name, a.2) ∈ ql) :
    ∃ ins', addQubitIndices ql opc ins = .ok ins' := by
  unfold addQubitIndices
  split
  · exact ⟨ins, rfl⟩
  · rcases mapM_ok_of_forall_ok (fun qubit => lookupIdx ql (qubit.1.name, qubit.2))
      opc.qargs (fun a ha => ⟨_, lookupIdx_ok_of_mem (hq a ha)⟩) with ⟨l, hl⟩
    rw [hl]
    exact ⟨_, rfl⟩

theorem addClbitIndices_ok_fields {cl : List Label} {ic : Bool} {opc : OpContext}
    {ins ins' : QasmQobjInstruction}
    (h : addClbitIndices cl ic opc ins = .ok ins') :
    ins'.name = ins.name ∧ ins'.qubits = ins.qubits ∧
    ins'.conditional = ins.conditional ∧ ins'.mask = ins.mask ∧
    ins'.relation = ins.relation ∧ ins'.val = ins.val ∧ ins'.control = ins.control ∧
    (opc.cargs.isEmpty = true → ins' = ins) ∧
    (opc.cargs.isEmpty = false →
      ∃ l, opc.cargs.mapM (fun clbit => lookupIdx cl (clbit.1.name, clbit.2)) = .ok l ∧
        ins'.memory = some l ∧
        (if ins.name = "measure" ∧ ic = true then ins'.register = some (.idxList l)
         else ins'.register = ins.register)) := by
  unfold addClbitIndices at h
  split at h
  · injection h with h
    subst h
    exact ⟨rfl, rfl, rfl, rfl, rfl, rfl, rfl, fun _ => rfl, fun hne => by simp_all⟩
  · rename_i hne
    split at h
    · exact absurd h (by simp)
    · rename_i l hl
      split at h
      · rename_i hmeas
        injection h with h
        subst h
        exact ⟨rfl, rfl, rfl, rfl, rfl, rfl, rfl, fun he => by simp_all,
          fun _ => ⟨l, hl, rfl, by simp [hmeas]⟩⟩
      · rename_i hmeas
        injection h with h
        subst h
        exact ⟨rfl, rfl, rfl, rfl, rfl, rfl, rfl, fun he => by simp_all,
          fun _ => ⟨l, hl, rfl, by simp [hmeas]⟩⟩

theorem addClbitIndices_ok_exists {cl : List Label} {ic : Bool} {opc : OpContext}
    (ins : QasmQobjInstruction)
    (hc : ∀ a ∈ opc.cargs, (a.1.name, a.2) ∈ cl) :
    ∃ ins', addClbitIndices cl ic opc ins = .ok ins' := by
  unfold addClbitIndices
  split
  · exact ⟨ins, rfl⟩
  · rcases mapM_ok_of_forall_ok (fun clbit => lookupIdx cl (clbit.1.name, clbit.2))
      opc.cargs (fun a ha => ⟨_, lookupIdx_ok_of_mem (hc a ha)⟩) with ⟨l, hl⟩
    rw [hl]
    dsimp only
    split
    · exact ⟨_, rfl⟩
    · exact ⟨_, rfl⟩

theorem addConditional_of_none {cl : List Label} {ms : Nat}
    {acc : List QasmQobjInstruction × Nat} {ins : QasmQobjInstruction}
    (h : ins.control = none) :
    addConditional cl ms acc ins = (acc.1 ++ [ins], acc.2) := by
  unfold addConditional
  rw [h]

theorem addConditional_of_some {cl : List Label} {ms : Nat}
    {acc : List QasmQobjInstruction × Nat} {ins : QasmQobjInstruction}
    {reg : Register} {v : Nat} (h : ins.control = some (reg, v)) :
    addConditional cl ms acc ins =
      (acc.1 ++ [mkBfunc cl reg v (ms + acc.2),
                 { ins with conditional := some (ms + acc.2), control := none }],
       acc.2 + 1) := by
  unfold addConditional
  rw [h]

/-! ### The shape of one successful `lowerOp` step -/

theorem lowerOp_ok_destruct {ql cl : List Label} {ms : Nat} {ic : Bool}
    {acc out : List QasmQobjInstruction × Nat} {opc : OpContext}
    (h : lowerOp ql cl ms ic acc opc = .ok out) :
    ∃ ins : QasmQobjInstruction,
      ins.name = opc.op.name ∧ ins.control = none ∧
      ins.mask = none ∧ ins.relation = none ∧ ins.val = none ∧
      (opc.op.control = none → out = (acc.1 ++ [ins], acc.2) ∧ ins.conditional = none) ∧
      (∀ reg v, opc.op.control = some (reg, v) →
        out = (acc.1 ++ [mkBfunc cl reg v (ms + acc.2), ins], acc.2 + 1) ∧
        ins.conditional = some (ms + acc.2)) ∧
      (∀ l, ins.memory = some l →
        opc.cargs.mapM (fun clbit => lookupIdx cl (clbit.1.name, clbit.2)) = .ok l) ∧
      (∀ rf, ins.register = some rf →
        ∃ l, ins.memory = some l ∧ rf = .idxList l ∧ ins.name = "measure" ∧ ic = true) ∧
      (ins.name = "measure" → ic = true → ∀ l, ins.memory = some l →
        ins.register = some (.idxList l)) ∧
      (opc.qargs.isEmpty = false →
        ∃ l, opc.qargs.mapM (fun qubit => lookupIdx ql (qubit.1.name, qubit.2)) = .ok l) ∧
      (opc.cargs.isEmpty = false →
        ∃ l, opc.cargs.mapM (fun clbit => lookupIdx cl (clbit.1.name, clbit.2)) = .ok l) := by
  unfold lowerOp at h
  cases h1 : addQubitIndices ql opc opc.op.assemble with
  | error e => rw [h1] at h; simp at h
  | ok ins1 =>
    rw [h1] at h
    dsimp only at h
    cases h2 : addClbitIndices cl ic opc ins1 with
    | error e => rw [h2] at h; simp at h
    | ok ins2 =>
      rw [h2] at h
      dsimp only at h
      injection h with hout
      obtain ⟨q_name, q_mem, q_reg, q_cond, q_mask, q_rel, q_val, q_ctrl, q_lookups⟩ :=
        addQubitIndices_ok_fields h1
      obtain ⟨c_name, _c_qubits, c_cond, c_mask, c_rel, c_val, c_ctrl, c_empty, c_nonempty⟩ :=
        addClbitIndices_ok_fields h2
      have hname2 : ins2.name = opc.op.name := by rw [c_name, q_name]; rfl
      have hctrl2 : ins2.control = opc.op.control := by rw [c_ctrl, q_ctrl]; rfl
      have hmask2 : ins2.mask = none := by rw [c_mask, q_mask]; rfl
      have hrel2 : ins2.relation = none := by rw [c_rel, q_rel]; rfl
      have hval2 : ins2.val = none := by rw [c_val, q_val]; rfl
      have hcond2 : ins2.conditional = none := by rw [c_cond, q_cond]; rfl
      have hmem2 : ∀ l, ins2.memory = some l →
          opc.cargs.mapM (fun clbit => lookupIdx cl (clbit.1.name, clbit.2)) = .ok l := by
        intro l hl
        cases he : opc.cargs.isEmpty with
        | true =>
          rw [c_empty he] at hl
          have hq : ins1.memory = none := q_mem
          rw [hq] at hl
          cases hl
        | false =>
          obtain ⟨l0, hl0, hm0, _⟩ := c_nonempty he
          rw [hm0] at hl
          injection hl with hl
          exact hl ▸ hl0
      have hreg2 : ∀ rf, ins2.register = some rf →
          ∃ l, ins2.memory = some l ∧ rf = .idxList l ∧ ins2.name = "measure" ∧ ic = true := by
        intro rf hrf
        cases he : opc.cargs.isEmpty with
        | true =>
          rw [c_empty he] at hrf
          have hq : ins1.register = none := q_reg
          rw [hq] at hrf
          cases hrf
        | false =>
          obtain ⟨l0, hl0, hm0, hif⟩ := c_nonempty he
          by_cases hm : ins1.name = "measure" ∧ ic = true
          · rw [if_pos hm] at hif
            rw [hif] at hrf
            injection hrf with hrf
            exact ⟨l0, hm0, hrf.symm, by rw [c_name]; exact hm.1, hm.2⟩
          · rw [if_neg hm] at hif
            have hq : ins2.register = none := by rw [hif]; exact q_reg
            rw [hq] at hrf
            cases hrf
      have hmeas2 : ins2.name = "measure" → ic = true → ∀ l, ins2.memory = some l →
          ins2.register = some (.idxList l) := by
        intro hm hic l hl
        cases he : opc.cargs.isEmpty with
        | true =>
          rw [c_empty he] at hl
          have hq : ins1.memory = none := q_mem
          rw [hq] at hl
          cases hl
        | false =>
          obtain ⟨l0, hl0, hm0, hif⟩ := c_nonempty he
          have hcondTrue : ins1.name = "measure" ∧ ic = true := ⟨by rw [← c_name]; exact hm, hic⟩
          rw [if_pos hcondTrue] at hif
          rw [hm0] at hl
          injection hl with hl
          rw [← hl]
          exact hif
      have hqlook : opc.qargs.isEmpty = false →
          ∃ l, opc.qargs.mapM (fun qubit => lookupIdx ql (qubit.1.name, qubit.2)) = .ok l :=
        fun hne => (q_lookups hne).imp fun l hl => hl.1
      have hclook : opc.cargs.isEmpty = false →
          ∃ l, opc.cargs.mapM (fun clbit => lookupIdx cl (clbit.1.name, clbit.2)) = .ok l :=
        fun hne => (c_nonempty hne).imp fun l hl => hl.1
      cases hoc : opc.op.control with
      | none =>
        have h2c : ins2.control = none := by rw [hctrl2, hoc]
        rw [addConditional_of_none h2c] at hout
        refine ⟨ins2, hname2, h2c, hmask2, hrel2, hval2, ?_, ?_, hmem2, hreg2, hmeas2,
          hqlook, hclook⟩
        · intro _
          exact ⟨hout.symm, hcond2⟩
        · intro reg v hcontra
          exact Option.noConfusion hcontra
      | some rv =>
        obtain ⟨reg, v⟩ := rv
        have h2c : ins2.control = some (reg, v) := by rw [hctrl2, hoc]
        rw [addConditional_of_some h2c] at hout
        refine ⟨{ ins2 with conditional := some (ms + acc.2), control := none },
          hname2, rfl, hmask2, hrel2, hval2, ?_, ?_, hmem2, hreg2, hmeas2, hqlook, hclook⟩
        · intro hcontra
          exact Option.noConfusion hcontra
        · intro reg' v' hrv
          have hpair := Option.some.inj hrv
          injection hpair with hr hv
          subst hr
          subst hv
          exact ⟨hout.symm, rfl⟩

/-! ### Lemmas about `condTestSlots` -/

theorem condTestSlots_append (l₁ l₂ : List QasmQobjInstruction) :
    condTestSlots (l₁ ++ l₂) = condTestSlots l₁ ++ condTestSlots l₂ := by
  simp [condTestSlots, List.filterMap_append]

theorem condTestSlots_nonslot_singleton {ins : QasmQobjInstruction}
    (h : ∀ n, ins.register ≠ some (.slot n)) : condTestSlots [ins] = [] := by
  unfold condTestSlots
  rw [List.filterMap_cons]
  cases hr : ins.register with
  | none => simp
  | some rf =>
    cases rf with
    | idxList l => simp
    | slot n => exact absurd hr (h n)

theorem condTestSlots_bfunc_cons (cl : List Label) (reg : Register) (v idx : Nat)
    (rest : List QasmQobjInstruction) :
    condTestSlots (mkBfunc cl reg v idx :: rest) = idx :: condTestSlots rest := by
  simp [condTestSlots, mkBfunc, List.filterMap_cons]

/-! ### Invariants of the per-circuit lowering fold -/

theorem foldlM_lowerOp_all {ql cl : List Label} {ms : Nat} {ic : Bool}
    (P : QasmQobjInstruction → Prop) :
    ∀ (l : List OpContext) (acc out : List QasmQobjInstruction × Nat),
      (∀ ins ∈ acc.1, P ins) →
      (∀ acc' opc out', opc ∈ l → lowerOp ql cl ms ic acc' opc = .ok out' →
        ∀ ins ∈ out'.1, ins ∈ acc'.1 ∨ P ins) →
      l.foldlM (lowerOp ql cl ms ic) acc = .ok out →
      ∀ ins ∈ out.1, P ins := by
  intro l
  induction l with
  | nil =>
    intro acc out hacc _ h
    rw [List.foldlM_nil, exceptPure_eq_ok] at h
    injection h with h
    exact h ▸ hacc
  | cons a t ih =>
    intro acc out hacc hnew h
    rw [List.foldlM_cons] at h
    cases hm : lowerOp ql cl ms ic acc a with
    | error e => rw [hm, exceptError_bind] at h; exact absurd h (by simp)
    | ok mid =>
      rw [hm, exceptOk_bind] at h
      exact ih mid out
        (fun ins hins => (hnew acc a mid (List.mem_cons_self _ _) hm ins hins).elim
          (fun hmem => hacc ins hmem) id)
        (fun acc' opc out' hopc => hnew acc' opc out' (List.mem_cons_of_mem _ hopc))
        h

theorem foldlM_lowerOp_count {ql cl : List Label} {ms : Nat} {ic : Bool} :
    ∀ (l : List OpContext) (acc out : List QasmQobjInstruction × Nat),
      l.foldlM (lowerOp ql cl ms ic) acc = .ok out →
      out.1.length = acc.1.length + l.length + countConditionals l ∧
      out.2 = acc.2 + countConditionals l := by
  intro l
  induction l with
  | nil =>
    intro acc out h
    rw [List.foldlM_nil, exceptPure_eq_ok] at h
    injection h with h
    subst h
    simp [countConditionals]
  | cons a t ih =>
    intro acc out h
    rw [List.foldlM_cons] at h
    cases hm : lowerOp ql cl ms ic acc a with
    | error e => rw [hm, exceptError_bind] at h; exact absurd h (by simp)
    | ok mid =>
      rw [hm, exceptOk_bind] at h
      obtain ⟨hl, hc⟩ := ih mid out h
      obtain ⟨ins, _, _, _, _, _, hnone, hsome, _⟩ := lowerOp_ok_destruct hm
      cases hoc : a.op.control with
      | none =>
        obtain ⟨hmid, _⟩ := hnone hoc
        have hcc : countConditionals (a :: t) = countConditionals t := by
          simp [countConditionals, List.countP_cons, hoc]
        have h1 : mid.1.length = acc.1.length + 1 := by rw [hmid]; simp
        have h2 : mid.2 = acc.2 := by rw [hmid]
        refine ⟨?_, ?_⟩
        · rw [hl, h1, hcc, List.length_cons]; omega
        · rw [hc, h2, hcc]
      | some rv =>
        obtain ⟨reg, v⟩ := rv
        obtain ⟨hmid, _⟩ := hsome reg v hoc
        have hcc : countConditionals (a :: t) = countConditionals t + 1 := by
          simp [countConditionals, List.countP_cons, hoc]
        have h1 : mid.1.length = acc.1.length + 2 := by rw [hmid]; simp
        have h2 : mid.2 = acc.2 + 1 := by rw [hmid]
        refine ⟨?_, ?_⟩
        · rw [hl, h1, hcc, List.length_cons]; omega
        · rw [hc, h2, hcc]; omega

theorem foldlM_lowerOp_slots {ql cl : List Label} {ms : Nat} {ic : Bool} :
    ∀ (l : List OpContext) (acc out : List QasmQobjInstruction × Nat),
      l.foldlM (lowerOp ql cl ms ic) acc = .ok out →
      condTestSlots out.1 =
        condTestSlots acc.1 ++ List.range' (ms + acc.2) (countConditionals l) ∧
      out.2 = acc.2 + countConditionals l := by
  intro l
  induction l with
  | nil =>
    intro acc out h
    rw [List.foldlM_nil, exceptPure_eq_ok] at h
    injection h with h
    subst h
    simp [countConditionals]
  | cons a t ih =>
    intro acc out h
    rw [List.foldlM_cons] at h
    cases hm : lowerOp ql cl ms ic acc a with
    | error e => rw [hm, exceptError_bind] at h; exact absurd h (by simp)
    | ok mid =>
      rw [hm, exceptOk_bind] at h
      obtain ⟨hs, hc⟩ := ih mid out h
      obtain ⟨ins, _, _, _, _, _, hnone, hsome, _, hregister, _⟩ := lowerOp_ok_destruct hm
      have hnoslot : ∀ n, ins.register ≠ some (.slot n) := by
        intro n hn
        obtain ⟨l0, _, heq, _, _⟩ := hregister (.slot n) hn
        exact RegisterField.noConfusion heq
      cases hoc : a.op.control with
      | none =>
        obtain ⟨hmid, _⟩ := hnone hoc
        have hcc : countConditionals (a :: t) = countConditionals t := by
          simp [countConditionals, List.countP_cons, hoc]
        have hslots : condTestSlots mid.1 = condTestSlots acc.1 := by
          rw [hmid]
          rw [condTestSlots_append, condTestSlots_nonslot_singleton hnoslot,
            List.append_nil]
        have h2 : mid.2 = acc.2 := by rw [hmid]
        refine ⟨?_, ?_⟩
        · rw [hs, hslots, h2, hcc]
        · rw [hc, h2, hcc]
      | some rv =>
        obtain ⟨reg, v⟩ := rv
        obtain ⟨hmid, _⟩ := hsome reg v hoc
        have hcc : countConditionals (a :: t) = countConditionals t + 1 := by
          simp [countConditionals, List.countP_cons, hoc]
        have hslots : condTestSlots mid.1 = condTestSlots acc.1 ++ [ms + acc.2] := by
          rw [hmid]
          rw [condTestSlots_append, condTestSlots_bfunc_cons,
            condTestSlots_nonslot_singleton hnoslot]
        have h2 : mid.2 = acc.2 + 1 := by rw [hmid]
        refine ⟨?_, ?_⟩
        · rw [hs, hslots, h2, hcc, List.range'_succ, List.append_assoc,
            List.singleton_append, Nat.add_assoc]
        · rw [hc, h2, hcc]; omega

theorem foldlM_lowerOp_mem {ql cl : List Label} {ms : Nat} {ic : Bool} :
    ∀ (l : List OpContext) (acc out : List QasmQobjInstruction × Nat),
      l.foldlM (lowerOp ql cl ms ic) acc = .ok out →
      ∀ opc ∈ l, ∃ acc' out', lowerOp ql cl ms ic acc' opc = .ok out' := by
  intro l
  induction l with
  | nil => intro acc out _ opc hopc; exact absurd hopc (by simp)
  | cons a t ih =>
    intro acc out h
    rw [List.foldlM_cons] at h
    cases hm : lowerOp ql cl ms ic acc a with
    | error e => rw [hm, exceptError_bind] at h; exact absurd h (by simp)
    | ok mid =>
      rw [hm, exceptOk_bind] at h
      intro opc hopc
      rcases List.mem_cons.mp hopc with hopc | hopc
      · exact ⟨acc, mid, hopc ▸ hm⟩
      · exact ih mid out h opc hopc

/-! ### Destructors for a successful per-circuit / whole-batch assembly -/

theorem assembleExperiment_ok {c : Circuit} {exp : QasmQobjExperiment}
    (h : assembleExperiment c = .ok exp) :
    ∃ res : List QasmQobjInstruction × Nat,
      c.data.foldlM
        (lowerOp (buildLabels c.qregs) (buildLabels c.cregs) (totalSize c.cregs)
          (isConditionalExperiment c)) ([], 0) = .ok res ∧
      exp.instructions = res.1 ∧
      exp.header.qubit_labels = buildLabels c.qregs ∧
      exp.header.clbit_labels = buildLabels c.cregs ∧
      exp.header.n_qubits = totalSize c.qregs ∧
      exp.header.memory_slots = totalSize c.cregs ∧
      exp.header.qreg_sizes = regSizes c.qregs ∧
      exp.header.creg_sizes = regSizes c.cregs ∧
      exp.header.name = c.name ∧
      exp.config.n_qubits = totalSize c.qregs ∧
      exp.config.memory_slots = totalSize c.cregs := by
  simp only [assembleExperiment] at h
  cases hm : c.data.foldlM
      (lowerOp (buildLabels c.qregs) (buildLabels c.cregs) (totalSize c.cregs)
        (isConditionalExperiment c)) ([], 0) with
  | error e => rw [hm] at h; simp at h
  | ok res =>
    rw [hm] at h
    dsimp only at h
    injection h with h
    subst h
    exact ⟨res, rfl, rfl, rfl, rfl, rfl, rfl, rfl, rfl, rfl, rfl, rfl⟩

theorem assemble_circuits_ok {cs : List Circuit} {rc : Option RunConfig}
    {qid qh : String} {q : QasmQobj}
    (h : assemble_circuits cs rc qid qh = .ok q) :
    cs.mapM assembleExperiment = .ok q.experiments ∧
    q.qobj_id = qid ∧ q.header = qh ∧
    q.config.n_qubits = some (maxNQubits cs) ∧
    q.config.memory_slots = some (maxMemorySlots cs) ∧
    q.config.other = (configOfRun rc).other := by
  simp only [assemble_circuits] at h
  cases hm : cs.mapM assembleExperiment with
  | error e => rw [hm] at h; simp at h
  | ok exps =>
    rw [hm] at h
    dsimp only at h
    injection h with h
    subst h
    exact ⟨rfl, rfl, rfl, rfl, rfl, rfl⟩

/-! ### The flat label table -/

theorem foldl_append_eq_flatMap (g : Register → List Label) :
    ∀ (regs : List Register) (init : List Label),
      regs.foldl (fun labels reg => labels ++ g reg) init = init ++ regs.flatMap g := by
  intro regs
  induction regs with
  | nil => intro init; simp
  | cons r t ih =>
    intro init
    rw [List.foldl_cons, ih, List.flatMap_cons, List.append_assoc]

theorem buildLabels_eq_flatMap (regs : List Register) :
    buildLabels regs = regs.flatMap labelsOf := by
  unfold buildLabels
  rw [foldl_append_eq_flatMap labelsOf regs []]
  simp

theorem labelsOf_length (reg : Register) : (labelsOf reg).length = reg.size := by
  simp [labelsOf]

theorem mem_labelsOf {reg : Register} {lb : Label} :
    lb ∈ labelsOf reg ↔ lb.1 = reg.name ∧ lb.2 < reg.size := by
  unfold labelsOf
  rw [List.mem_map]
  constructor
  · rintro ⟨j, hj, rfl⟩
    exact ⟨rfl, List.mem_range.mp hj⟩
  · rintro ⟨h1, h2⟩
    exact ⟨lb.2, List.mem_range.mpr h2, by rw [← h1]⟩

theorem foldl_add_size (regs : List Register) :
    ∀ init, regs.foldl (fun n reg => n + reg.size) init
      = init + regs.foldl (fun n reg => n + reg.size) 0 := by
  induction regs with
  | nil => intro init; simp
  | cons r t ih =>
    intro init
    rw [List.foldl_cons, List.foldl_cons, ih, ih (0 + r.size)]
    omega

theorem totalSize_go (regs : List Register) :
    ∀ init, regs.foldl (fun n reg => n + reg.size) init = init + totalSize regs :=
  foldl_add_size regs

theorem totalSize_cons (r : Register) (t : List Register) :
    totalSize (r :: t) = r.size + totalSize t := by
  show (r :: t).foldl (fun n reg => n + reg.size) 0 = r.size + totalSize t
  rw [List.foldl_cons, totalSize_go]
  omega

theorem buildLabels_length (regs : List Register) :
    (buildLabels regs).length = totalSize regs := by
  rw [buildLabels_eq_flatMap]
  induction regs with
  | nil => simp [totalSize]
  | cons r t ih =>
    rw [List.flatMap_cons, List.length_append, labelsOf_length, ih, totalSize_cons]

theorem totalSize_eq_sum (regs : List Register) :
    totalSize regs = (regs.map (fun reg => reg.size)).sum := by
  induction regs with
  | nil => simp [totalSize]
  | cons r t ih => rw [totalSize_cons, ih, List.map_cons, List.sum_cons]

theorem buildLabels_nodup {regs : List Register}
    (h : (regs.map Register.name).Nodup) : (buildLabels regs).Nodup := by
  rw [buildLabels_eq_flatMap, List.nodup_flatMap]
  constructor
  · intro reg _
    unfold labelsOf
    refine List.Nodup.map ?_ (List.nodup_range _)
    intro a b hab
    injection hab with h1 h2
  · have hp : regs.Pairwise (fun a b => a.name ≠ b.name) := List.pairwise_map.mp h
    refine hp.imp ?_
    intro a b hab
    intro lb hla hlb
    exact hab (by rw [← (mem_labelsOf.mp hla).1, ← (mem_labelsOf.mp hlb).1])

theorem buildLabels_getElem? :
    ∀ (regs : List Register) (k : Nat) (hk : k < regs.length) (j : Nat),
      j < (regs.get ⟨k, hk⟩).size →
      (buildLabels regs)[(((regs.take k).map (fun reg => reg.size)).sum + j)]? =
        some ((regs.get ⟨k, hk⟩).name, j) := by
  intro regs
  induction regs with
  | nil => intro k hk; exact absurd hk (by simp)
  | cons r t ih =>
    intro k hk j hj
    rw [buildLabels_eq_flatMap, List.flatMap_cons]
    cases k with
    | zero =>
      simp only [List.take_zero, List.map_nil, List.sum_nil, Nat.zero_add]
      have hj0 : j < r.size := by simpa using hj
      rw [List.getElem?_append_left (by rw [labelsOf_length]; exact hj0)]
      unfold labelsOf
      rw [List.getElem?_map, List.getElem?_range hj0]
      rfl
    | succ k' =>
      have hk' : k' < t.length := by simpa using hk
      have hj' : j < (t.get ⟨k', hk'⟩).size := by simpa using hj
      rw [List.take_succ_cons, List.map_cons, List.sum_cons]
      have hge : (labelsOf r).length ≤ r.size + ((t.take k').map (fun reg => reg.size)).sum + j := by
        rw [labelsOf_length]
        omega
      rw [List.getElem?_append_right hge]
      have hsub : r.size + ((t.take k').map (fun reg => reg.size)).sum + j - (labelsOf r).length
          = ((t.take k').map (fun reg => reg.size)).sum + j := by
        rw [labelsOf_length]
        omega
      rw [hsub, ← buildLabels_eq_flatMap]
      exact ih k' hk' j hj'

/-! ### Bit-level characterization of the conditional mask and value -/

theorem bitShift_testBit (v off s i : Nat) :
    (((v >>> off) &&& 1) <<< s).testBit i = (v.testBit off && decide (s = i)) := by
  rcases Nat.mod_two_eq_zero_or_one (v >>> off) with hm | hm
  · have h0 : (v >>> off) &&& 1 = 0 := by rw [Nat.and_one_is_mod, hm]
    have hb : v.testBit off = false := by
      rw [Nat.testBit_to_div_mod, ← Nat.shiftRight_eq_div_pow, hm]
      simp
    rw [h0, Nat.zero_shiftLeft, Nat.zero_testBit, hb, Bool.false_and]
  · have h1 : (v >>> off) &&& 1 = 1 := by rw [Nat.and_one_is_mod, hm]
    have hb : v.testBit off = true := by
      rw [Nat.testBit_to_div_mod, ← Nat.shiftRight_eq_div_pow, hm]
      simp
    rw [h1, Nat.one_shiftLeft, Nat.testBit_two_pow, hb, Bool.true_and]

theorem condFold_fst_testBit (cl : List Label) (r : String) (v : Nat) :
    ∀ (l : List Label) (m0 v0 : Nat) (i : Nat),
      ((l.foldl (condStep cl r v) (m0, v0)).1.testBit i = true ↔
        m0.testBit i = true ∨ ∃ lb ∈ l, lb.1 = r ∧ cl.indexOf lb = i) := by
  intro l
  induction l with
  | nil => intro m0 v0 i; simp
  | cons c t ih =>
    intro m0 v0 i
    rw [List.foldl_cons]
    by_cases hc : c.1 = r
    · have hstep : condStep cl r v (m0, v0) c =
          (m0 ||| 1 <<< cl.indexOf c, v0 ||| ((v >>> c.2) &&& 1) <<< cl.indexOf c) := by
        simp [condStep, hc]
      rw [hstep, ih]
      constructor
      · rintro (hm | ⟨lb, hlb, h1, h2⟩)
        · rw [Nat.testBit_or] at hm
          rcases Bool.or_eq_true_iff.mp hm with hm | hm
          · exact Or.inl hm
          · rw [Nat.one_shiftLeft, Nat.testBit_two_pow] at hm
            exact Or.inr ⟨c, List.mem_cons_self _ _, hc, of_decide_eq_true hm⟩
        · exact Or.inr ⟨lb, List.mem_cons_of_mem _ hlb, h1, h2⟩
      · rintro (hm | ⟨lb, hlb, h1, h2⟩)
        · left
          rw [Nat.testBit_or, hm, Bool.true_or]
        · rcases List.mem_cons.mp hlb with rfl | hlb
          · left
            rw [Nat.testBit_or, Nat.one_shiftLeft, Nat.testBit_two_pow]
            simp [h2]
          · exact Or.inr ⟨lb, hlb, h1, h2⟩
    · have hstep : condStep cl r v (m0, v0) c = (m0, v0) := by simp [condStep, hc]
      rw [hstep, ih]
      constructor
      · rintro (hm | ⟨lb, hlb, h1, h2⟩)
        · exact Or.inl hm
        · exact Or.inr ⟨lb, List.mem_cons_of_mem _ hlb, h1, h2⟩
      · rintro (hm | ⟨lb, hlb, h1, h2⟩)
        · exact Or.inl hm
        · rcases List.mem_cons.mp hlb with rfl | hlb
          · exact absurd h1 hc
          · exact Or.inr ⟨lb, hlb, h1, h2⟩

theorem condFold_snd_testBit (cl : List Label) (r : String) (v : Nat) :
    ∀ (l : List Label) (m0 v0 : Nat) (i : Nat),
      ((l.foldl (condStep cl r v) (m0, v0)).2.testBit i = true ↔
        v0.testBit i = true ∨
          ∃ lb ∈ l, lb.1 = r ∧ cl.indexOf lb = i ∧ v.testBit lb.2 = true) := by
  intro l
  induction l with
  | nil => intro m0 v0 i; simp
  | cons c t ih =>
    intro m0 v0 i
    rw [List.foldl_cons]
    by_cases hc : c.1 = r
    · have hstep : condStep cl r v (m0, v0) c =
          (m0 ||| 1 <<< cl.indexOf c, v0 ||| ((v >>> c.2) &&& 1) <<< cl.indexOf c) := by
        simp [condStep, hc]
      rw [hstep, ih]
      constructor
      · rintro (hm | ⟨lb, hlb, h1, h2, h3⟩)
        · rw [Nat.testBit_or] at hm
          rcases Bool.or_eq_true_iff.mp hm with hm | hm
          · exact Or.inl hm
          · rw [bitShift_testBit] at hm
            rcases Bool.and_eq_true_iff.mp hm with ⟨hb, hd⟩
            exact Or.inr ⟨c, List.mem_cons_self _ _, hc, of_decide_eq_true hd, hb⟩
        · exact Or.inr ⟨lb, List.mem_cons_of_mem _ hlb, h1, h2, h3⟩
      · rintro (hm | ⟨lb, hlb, h1, h2, h3⟩)
        · left
          rw [Nat.testBit_or, hm, Bool.true_or]
        · rcases List.mem_cons.mp hlb with rfl | hlb
          · left
            rw [Nat.testBit_or, bitShift_testBit, h3, h2]
            simp
          · exact Or.inr ⟨lb, hlb, h1, h2, h3⟩
    · have hstep : condStep cl r v (m0, v0) c = (m0, v0) := by simp [condStep, hc]
      rw [hstep, ih]
      constructor
      · rintro (hm | ⟨lb, hlb, h1, h2, h3⟩)
        · exact Or.inl hm
        · exact Or.inr ⟨lb, List.mem_cons_of_mem _ hlb, h1, h2, h3⟩
      · rintro (hm | ⟨lb, hlb, h1, h2, h3⟩)
        · exact Or.inl hm
        · rcases List.mem_cons.mp hlb with rfl | hlb
          · exact absurd h1 hc
          · exact Or.inr ⟨lb, hlb, h1, h2, h3⟩

theorem getElem?_indexOf_of_mem {α : Type _} [BEq α] [LawfulBEq α] {a : α} :
    ∀ {l : List α}, a ∈ l → l[l.indexOf a]? = some a := by
  intro l
  induction l with
  | nil => intro h; exact absurd h (by simp)
  | cons b t ih =>
    intro h
    rw [List.indexOf_cons]
    by_cases hba : b = a
    · subst hba
      rw [beq_self_eq_true]
      simp
    · rw [beq_eq_false_iff_ne.mpr hba]
      have hat : a ∈ t := by
        rcases List.mem_cons.mp h with h | h
        · exact absurd h.symm hba
        · exact h
      simpa using ih hat

theorem indexOf_getElem_of_nodup {α : Type _} [BEq α] [LawfulBEq α] :
    ∀ (l : List α), l.Nodup → ∀ (i : Nat) (h : i < l.length), l.indexOf l[i] = i := by
  intro l
  induction l with
  | nil => intro _ i h; exact absurd h (by simp)
  | cons b t ih =>
    intro hnd i h
    cases i with
    | zero =>
      rw [List.getElem_cons_zero, List.indexOf_cons, beq_self_eq_true]
      rfl
    | succ i' =>
      rw [List.getElem_cons_succ]
      have hnc := List.nodup_cons.mp hnd
      have hi' : i' < t.length := by simpa using h
      have hne : b ≠ t[i'] := fun he => hnc.1 (he ▸ List.getElem_mem hi')
      rw [List.indexOf_cons, beq_eq_false_iff_ne.mpr hne]
      simp [ih hnc.2 i' hi']

theorem condMaskVal_fst_testBit {cl : List Label} {r : String} {v : Nat}
    (hnd : cl.Nodup) (i : Nat) :
    ((condMaskVal cl r v).1.testBit i = true ↔ ∃ off, cl[i]? = some (r, off)) := by
  unfold condMaskVal
  rw [condFold_fst_testBit]
  rw [Nat.zero_testBit]
  simp only [Bool.false_eq_true, false_or]
  constructor
  · rintro ⟨lb, hlb, h1, h2⟩
    subst h2
    exact ⟨lb.2, by rw [getElem?_indexOf_of_mem hlb, ← h1]⟩
  · rintro ⟨off, hoff⟩
    obtain ⟨hlt, heq⟩ := List.getElem?_eq_some_iff.mp hoff
    refine ⟨(r, off), ?_, rfl, ?_⟩
    · rw [← heq]
      exact List.getElem_mem hlt
    · rw [← heq]
      exact indexOf_getElem_of_nodup cl hnd i hlt

theorem condMaskVal_snd_testBit {cl : List Label} {r : String} {v : Nat}
    (hnd : cl.Nodup) (i : Nat) :
    ((condMaskVal cl r v).2.testBit i = true ↔
      ∃ off, cl[i]? = some (r, off) ∧ v.testBit off = true) := by
  unfold condMaskVal
  rw [condFold_snd_testBit]
  rw [Nat.zero_testBit]
  simp only [Bool.false_eq_true, false_or]
  constructor
  · rintro ⟨lb, hlb, h1, h2, h3⟩
    subst h2
    exact ⟨lb.2, by rw [getElem?_indexOf_of_mem hlb, ← h1], h3⟩
  · rintro ⟨off, hoff, hbit⟩
    obtain ⟨hlt, heq⟩ := List.getElem?_eq_some_iff.mp hoff
    refine ⟨(r, off), ?_, rfl, ?_, hbit⟩
    · rw [← heq]
      exact List.getElem_mem hlt
    · rw [← heq]
      exact indexOf_getElem_of_nodup cl hnd i hlt

theorem condFold_nomatch (cl : List Label) (r : String) (v : Nat) :
    ∀ (l : List Label) (mv : Nat × Nat), (∀ lb ∈ l, lb.1 ≠ r) →
      l.foldl (condStep cl r v) mv = mv := by
  intro l
  induction l with
  | nil => intro mv _; rfl
  | cons c t ih =>
    intro mv h
    rw [List.foldl_cons]
    have hc : condStep cl r v mv c = mv := by
      simp [condStep, h c (List.mem_cons_self _ _)]
    rw [hc]
    exact ih mv (fun lb hlb => h lb (List.mem_cons_of_mem _ hlb))

theorem condMaskVal_nomatch {cl : List Label} {r : String} {v : Nat}
    (h : ∀ lb ∈ cl, lb.1 ≠ r) : condMaskVal cl r v = (0, 0) :=
  condFold_nomatch cl r v cl (0, 0) h

/-! ### Claim theorems -/

/-- Claim C1: for every synthesized ConditionalTest, the set bits of its mask
are exactly the flat classical indices of the labels belonging to the
condition's register; the bits of `val` at those same flat positions equal the
bits of the condition's integer value at each label's offset within its own
register; all other bits of both are zero; the relation is equality; and mask
and val are emitted as hexadecimal `"0x%X"` string literals. -/
theorem bfunc_mask_val_spec (ql cl : List Label) (ms : Nat) (ic : Bool)
    (acc : List QasmQobjInstruction × Nat) (opc : OpContext)
    (reg : Register) (v : Nat) (out : List QasmQobjInstruction × Nat)
    (hctrl : opc.op.control = some (reg, v))
    (hnd : cl.Nodup)
    (hok : lowerOp ql cl ms ic acc opc = .ok out) :
    ∃ ins, out = (acc.1 ++ [mkBfunc cl reg v (ms + acc.2), ins], acc.2 + 1) ∧
      (mkBfunc cl reg v (ms + acc.2)).relation = some "==" ∧
      (mkBfunc cl reg v (ms + acc.2)).mask =
        some (hexFmt (condMaskVal cl reg.name v).1) ∧
      (mkBfunc cl reg v (ms + acc.2)).val =
        some (hexFmt (condMaskVal cl reg.name v).2) ∧
      (∀ i, ((condMaskVal cl reg.name v).1.testBit i = true ↔
        ∃ off, cl[i]? = some (reg.name, off))) ∧
      (∀ i, ((condMaskVal cl reg.name v).2.testBit i = true ↔
        ∃ off, cl[i]? = some (reg.name, off) ∧ v.testBit off = true)) := by
  obtain ⟨ins, _, _, _, _, _, _, hsome, _⟩ := lowerOp_ok_destruct hok
  obtain ⟨hout, _⟩ := hsome reg v hctrl
  exact ⟨ins, hout, rfl, rfl, rfl,
    fun i => condMaskVal_fst_testBit hnd i,
    fun i => condMaskVal_snd_testBit hnd i⟩

/-- Concrete check of `bfunc_mask_val_spec` on a gate conditioned on a
two-bit register `c` with value 3. -/
theorem bfunc_mask_val_spec_witness :
    ∃ out, lowerOp [] [("c", 0), ("c", 1)] 2 true ([], 0)
        ⟨⟨"x", some (⟨"c", 2⟩, 3)⟩, [], []⟩ = Except.ok out ∧
      ∃ ins, out = ([mkBfunc [("c", 0), ("c", 1)] ⟨"c", 2⟩ 3 2, ins], 1) ∧
        (mkBfunc [("c", 0), ("c", 1)] ⟨"c", 2⟩ 3 2).relation = some "==" ∧
        (mkBfunc [("c", 0), ("c", 1)] ⟨"c", 2⟩ 3 2).mask =
          some (hexFmt (condMaskVal [("c", 0), ("c", 1)] "c" 3).1) ∧
        (mkBfunc [("c", 0), ("c", 1)] ⟨"c", 2⟩ 3 2).val =
          some (hexFmt (condMaskVal [("c", 0), ("c", 1)] "c" 3).2) ∧
        (∀ i, ((condMaskVal [("c", 0), ("c", 1)] "c" 3).1.testBit i = true ↔
          ∃ off, ([("c", 0), ("c", 1)] : List Label)[i]? = some ("c", off))) ∧
        (∀ i, ((condMaskVal [("c", 0), ("c", 1)] "c" 3).2.testBit i = true ↔
          ∃ off, ([("c", 0), ("c", 1)] : List Label)[i]? = some ("c", off) ∧
            Nat.testBit 3 off = true)) :=
  ⟨_, rfl, bfunc_mask_val_spec [] [("c", 0), ("c", 1)] 2 true ([], 0)
    ⟨⟨"x", some (⟨"c", 2⟩, 3)⟩, [], []⟩ ⟨"c", 2⟩ 3 _ rfl (by decide) rfl⟩

/-- Claim C5: for every conditional operation, after lowering, the lowered
instruction's conditional field equals the slot index of the ConditionalTest
synthesized for it and placed immediately before it, and the original
condition attribute is removed from the lowered instruction; moreover no
instruction of any assembled experiment retains a condition attribute. -/
theorem conditional_consumed_spec (ql cl : List Label) (ms : Nat) (ic : Bool)
    (acc : List QasmQobjInstruction × Nat) (opc : OpContext)
    (reg : Register) (v : Nat) (out : List QasmQobjInstruction × Nat)
    (c : Circuit) (exp : QasmQobjExperiment)
    (hctrl : opc.op.control = some (reg, v))
    (hok : lowerOp ql cl ms ic acc opc = .ok out)
    (hexp : assembleExperiment c = .ok exp) :
    (∃ ins, out = (acc.1 ++ [mkBfunc cl reg v (ms + acc.2), ins], acc.2 + 1) ∧
      (mkBfunc cl reg v (ms + acc.2)).register = some (.slot (ms + acc.2)) ∧
      ins.conditional = some (ms + acc.2) ∧ ins.control = none) ∧
    (∀ ins ∈ exp.instructions, ins.control = none) := by
  constructor
  · obtain ⟨ins, _, hctrl0, _, _, _, _, hsome, _⟩ := lowerOp_ok_destruct hok
    obtain ⟨hout, hcond⟩ := hsome reg v hctrl
    exact ⟨ins, hout, rfl, hcond, hctrl0⟩
  · obtain ⟨res, hfold, hins, _⟩ := assembleExperiment_ok hexp
    rw [hins]
    refine foldlM_lowerOp_all (fun ins => ins.control = none) c.data ([], 0) res
      (by simp) ?_ hfold
    intro acc' opc' out' _ hstep ins hmem
    obtain ⟨ins0, _, hc0, _, _, _, hnone, hsome, _⟩ := lowerOp_ok_destruct hstep
    cases hoc : opc'.op.control with
    | none =>
      obtain ⟨hout, _⟩ := hnone hoc
      rw [hout] at hmem
      rcases List.mem_append.mp hmem with hmem | hmem
      · exact Or.inl hmem
      · right
        have he : ins = ins0 := by simpa using hmem
        rw [he]
        exact hc0
    | some rv =>
      obtain ⟨reg', v'⟩ := rv
      obtain ⟨hout, _⟩ := hsome reg' v' hoc
      rw [hout] at hmem
      rcases List.mem_append.mp hmem with hmem | hmem
      · exact Or.inl hmem
      · right
        rcases List.mem_cons.mp hmem with rfl | hmem
        · rfl
        · have he : ins = ins0 := by simpa using hmem
          rw [he]
          exact hc0

/-- Concrete check of `conditional_consumed_spec` on a one-conditional
circuit. -/
theorem conditional_consumed_spec_witness :
    ∃ out exp,
      lowerOp [] [("c", 0)] 1 true ([], 0) ⟨⟨"x", some (⟨"c", 1⟩, 1)⟩, [], []⟩ =
        Except.ok out ∧
      assembleExperiment ⟨"c0", [], [⟨"c", 1⟩], [⟨⟨"x", some (⟨"c", 1⟩, 1)⟩, [], []⟩]⟩ =
        Except.ok exp ∧
      ((∃ ins, out = ([mkBfunc [("c", 0)] ⟨"c", 1⟩ 1 1, ins], 1) ∧
        (mkBfunc [("c", 0)] ⟨"c", 1⟩ 1 1).register = some (.slot 1) ∧
        ins.conditional = some 1 ∧ ins.control = none) ∧
      (∀ ins ∈ exp.instructions, ins.control = none)) :=
  ⟨_, _, rfl, rfl, conditional_consumed_spec [] [("c", 0)] 1 true ([], 0)
    ⟨⟨"x", some (⟨"c", 1⟩, 1)⟩, [], []⟩ ⟨"c", 1⟩ 1 _
    ⟨"c0", [], [⟨"c", 1⟩], [⟨⟨"x", some (⟨"c", 1⟩, 1)⟩, [], []⟩]⟩ _ rfl rfl rfl⟩

/-- Claim C6: the flat address tables are built by concatenating the registers
in declaration order with offsets ascending, each register of size `s`
contributing exactly `s` consecutive labels; the labels are distinct and the
table dense of length `n`; and `n_qubits` / `memory_slots` equal the sums of
the register sizes. -/
theorem label_table_spec (c : Circuit) (exp : QasmQobjExperiment)
    (hok : assembleExperiment c = .ok exp)
    (hq : (c.qregs.map Register.name).Nodup)
    (hc : (c.cregs.map Register.name).Nodup) :
    exp.header.qubit_labels = buildLabels c.qregs ∧
    exp.header.clbit_labels = buildLabels c.cregs ∧
    exp.header.n_qubits = (c.qregs.map (fun reg => reg.size)).sum ∧
    exp.header.memory_slots = (c.cregs.map (fun reg => reg.size)).sum ∧
    (buildLabels c.qregs).length = (c.qregs.map (fun reg => reg.size)).sum ∧
    (buildLabels c.cregs).length = (c.cregs.map (fun reg => reg.size)).sum ∧
    (buildLabels c.qregs).Nodup ∧ (buildLabels c.cregs).Nodup ∧
    (∀ (k : Nat) (hk : k < c.qregs.length) (j : Nat),
      j < (c.qregs.get ⟨k, hk⟩).size →
      (buildLabels c.qregs)[(((c.qregs.take k).map (fun reg => reg.size)).sum + j)]? =
        some ((c.qregs.get ⟨k, hk⟩).name, j)) ∧
    (∀ (k : Nat) (hk : k < c.cregs.length) (j : Nat),
      j < (c.cregs.get ⟨k, hk⟩).size →
      (buildLabels c.cregs)[(((c.cregs.take k).map (fun reg => reg.size)).sum + j)]? =
        some ((c.cregs.get ⟨k, hk⟩).name, j)) := by
  obtain ⟨res, _, _, hql, hcl, hnq, hms, _, _, _, _, _⟩ := assembleExperiment_ok hok
  refine ⟨hql, hcl, ?_, ?_, ?_, ?_, buildLabels_nodup hq, buildLabels_nodup hc,
    buildLabels_getElem? c.qregs, buildLabels_getElem? c.cregs⟩
  · rw [hnq, totalSize_eq_sum]
  · rw [hms, totalSize_eq_sum]
  · rw [buildLabels_length, totalSize_eq_sum]
  · rw [buildLabels_length, totalSize_eq_sum]

/-- Concrete check of `label_table_spec` on a circuit with a two-qubit and a
one-clbit register. -/
theorem label_table_spec_witness :
    ∃ exp, assembleExperiment ⟨"c0", [⟨"q", 2⟩], [⟨"c", 1⟩], []⟩ = Except.ok exp ∧
      (exp.header.qubit_labels = buildLabels [⟨"q", 2⟩] ∧
      exp.header.clbit_labels = buildLabels [⟨"c", 1⟩] ∧
      exp.header.n_qubits = 2 ∧
      exp.header.memory_slots = 1 ∧
      (buildLabels [⟨"q", 2⟩]).length = 2 ∧
      (buildLabels [⟨"c", 1⟩]).length = 1 ∧
      (buildLabels [⟨"q", 2⟩]).Nodup ∧ (buildLabels [⟨"c", 1⟩]).Nodup ∧
      (∀ (k : Nat) (hk : k < ([⟨"q", 2⟩] : List Register).length) (j : Nat),
        j < (([⟨"q", 2⟩] : List Register).get ⟨k, hk⟩).size →
        (buildLabels [⟨"q", 2⟩])[((([⟨"q", 2⟩] : List Register).take k).map
            (fun reg => reg.size)).sum + j]? =
          some ((([⟨"q", 2⟩] : List Register).get ⟨k, hk⟩).name, j)) ∧
      (∀ (k : Nat) (hk : k < ([⟨"c", 1⟩] : List Register).length) (j : Nat),
        j < (([⟨"c", 1⟩] : List Register).get ⟨k, hk⟩).size →
        (buildLabels [⟨"c", 1⟩])[((([⟨"c", 1⟩] : List Register).take k).map
            (fun reg => reg.size)).sum + j]? =
          some ((([⟨"c", 1⟩] : List Register).get ⟨k, hk⟩).name, j))) :=
  ⟨_, rfl, label_table_spec ⟨"c0", [⟨"q", 2⟩], [⟨"c", 1⟩], []⟩ _ rfl
    (by decide) (by decide)⟩

/-- Claim C8: an empty circuit list assembles successfully into a bundle with
an empty experiment list, `n_qubits = 0` and `memory_slots = 0`. -/
theorem empty_batch_spec (rc : Option RunConfig) (qid qh : String) :
    ∃ q, assemble_circuits [] rc qid qh = .ok q ∧ q.experiments = [] ∧
      q.config.n_qubits = some 0 ∧ q.config.memory_slots = some 0 :=
  ⟨_, rfl, rfl, rfl, rfl⟩

/-- Claim C9: a condition naming a register matching none of the circuit's
clbit labels raises no error: a ConditionalTest with mask `"0x0"` and val
`"0x0"` is still synthesized, still consumes a fresh slot index, and the
instruction is still gated on that slot. -/
theorem unmatched_condition_spec (ql cl : List Label) (ms : Nat) (ic : Bool)
    (acc : List QasmQobjInstruction × Nat) (opc : OpContext)
    (reg : Register) (v : Nat)
    (hctrl : opc.op.control = some (reg, v))
    (hnomatch : ∀ lb ∈ cl, lb.1 ≠ reg.name)
    (hq : ∀ a ∈ opc.qargs, ((a.1.name, a.2) : Label) ∈ ql)
    (hc : ∀ a ∈ opc.cargs, ((a.1.name, a.2) : Label) ∈ cl) :
    ∃ ins out, lowerOp ql cl ms ic acc opc = .ok out ∧
      out = (acc.1 ++ [mkBfunc cl reg v (ms + acc.2), ins], acc.2 + 1) ∧
      (mkBfunc cl reg v (ms + acc.2)).mask = some "0x0" ∧
      (mkBfunc cl reg v (ms + acc.2)).val = some "0x0" ∧
      ins.conditional = some (ms + acc.2) := by
  obtain ⟨ins1, h1⟩ := addQubitIndices_ok_exists opc.op.assemble hq
  obtain ⟨ins2, h2⟩ := @addClbitIndices_ok_exists cl ic opc ins1 hc
  have hlow : lowerOp ql cl ms ic acc opc = .ok (addConditional cl ms acc ins2) := by
    unfold lowerOp
    rw [h1]
    dsimp only
    rw [h2]
  have hc2 : ins2.control = some (reg, v) := by
    obtain ⟨_, _, _, _, _, _, _, hc1, _⟩ := addQubitIndices_ok_fields h1
    obtain ⟨_, _, _, _, _, _, hcc, _, _⟩ := addClbitIndices_ok_fields h2
    rw [hcc, hc1]
    exact hctrl
  rw [addConditional_of_some hc2] at hlow
  have h00 := condMaskVal_nomatch (v := v) hnomatch
  refine ⟨{ ins2 with conditional := some (ms + acc.2), control := none }, _, hlow,
    rfl, ?_, ?_, rfl⟩
  · show some (hexFmt (condMaskVal cl reg.name v).1) = some "0x0"
    rw [h00]
    rfl
  · show some (hexFmt (condMaskVal cl reg.name v).2) = some "0x0"
    rw [h00]
    rfl

/-- Concrete check of `unmatched_condition_spec`: a condition on register `c`
while the only clbit label belongs to register `a`. -/
theorem unmatched_condition_spec_witness :
    ∃ ins out, lowerOp [] [("a", 0)] 1 false ([], 0)
        ⟨⟨"x", some (⟨"c", 1⟩, 1)⟩, [], []⟩ = .ok out ∧
      out = ([mkBfunc [("a", 0)] ⟨"c", 1⟩ 1 1, ins], 1) ∧
      (mkBfunc [("a", 0)] ⟨"c", 1⟩ 1 1).mask = some "0x0" ∧
      (mkBfunc [("a", 0)] ⟨"c", 1⟩ 1 1).val = some "0x0" ∧
      ins.conditional = some 1 :=
  unmatched_condition_spec [] [("a", 0)] 1 false ([], 0)
    ⟨⟨"x", some (⟨"c", 1⟩, 1)⟩, [], []⟩ ⟨"c", 1⟩ 1 rfl (by decide) (by decide) (by decide)

/-- Claim C10: the length of an experiment's instruction list equals the
number of operations plus the number of conditional operations. -/
theorem instruction_count_spec (c : Circuit) (exp : QasmQobjExperiment)
    (hok : assembleExperiment c = .ok exp) :
    exp.instructions.length = c.data.length + countConditionals c.data := by
  obtain ⟨res, hfold, hins, _⟩ := assembleExperiment_ok hok
  obtain ⟨hlen, _⟩ := foldlM_lowerOp_count c.data ([], 0) res hfold
  rw [hins, hlen]
  simp

/-- Concrete check of `instruction_count_spec` on a circuit with one
measurement and one conditional gate. -/
theorem instruction_count_spec_witness :
    ∃ exp, assembleExperiment ⟨"c0", [], [⟨"c", 1⟩],
        [⟨⟨"measure", none⟩, [], [(⟨"c", 1⟩, 0)]⟩,
         ⟨⟨"x", some (⟨"c", 1⟩, 1)⟩, [], []⟩]⟩ = Except.ok exp ∧
      exp.instructions.length = 2 + 1 :=
  ⟨_, rfl, instruction_count_spec ⟨"c0", [], [⟨"c", 1⟩],
    [⟨⟨"measure", none⟩, [], [(⟨"c", 1⟩, 0)]⟩,
     ⟨⟨"x", some (⟨"c", 1⟩, 1)⟩, [], []⟩]⟩ _ rfl⟩

/-! ### Helpers for the running-maximum aggregation -/

theorem foldl_max_congr {α β : Type _} (f : α → Nat) (g : β → Nat) :
    ∀ {l : List α} {l' : List β}, List.Forall₂ (fun a b => f a = g b) l l' →
      ∀ init, l.foldl (fun m a => if f a > m then f a else m) init
        = l'.foldl (fun m b => if g b > m then g b else m) init := by
  intro l l' h
  induction h with
  | nil => intro init; rfl
  | cons hab _ ih =>
    intro init
    rw [List.foldl_cons, List.foldl_cons, hab, ih]

theorem le_foldl_max {β : Type _} (g : β → Nat) :
    ∀ (l : List β) (init : Nat),
      (∀ b ∈ l, g b ≤ l.foldl (fun m x => if g x > m then g x else m) init) ∧
      init ≤ l.foldl (fun m x => if g x > m then g x else m) init := by
  intro l
  induction l with
  | nil => intro init; exact ⟨by simp, Nat.le_refl _⟩
  | cons b t ih =>
    intro init
    rw [List.foldl_cons]
    constructor
    · intro x hx
      rcases List.mem_cons.mp hx with rfl | hx
      · refine Nat.le_trans ?_ (ih (if g x > init then g x else init)).2
        by_cases hgt : g x > init
        · rw [if_pos hgt]
        · rw [if_neg hgt]
          omega
      · exact (ih _).1 x hx
    · refine Nat.le_trans ?_ (ih (if g b > init then g b else init)).2
      by_cases hgt : g b > init
      · rw [if_pos hgt]
        omega
      · rw [if_neg hgt]

/-- Claim C2: in a circuit with any conditional operation, every lowered
measurement with classical-bit references has its eager-routing field set to
exactly its memory index list; in a circuit with no conditional operation, no
ConditionalTest appears (no mask/relation/val fields) and no instruction has
the eager-routing field set. -/
theorem conditional_measure_register_spec (c : Circuit) (exp : QasmQobjExperiment)
    (hok : assembleExperiment c = .ok exp) :
    ((∃ opc ∈ c.data, opc.op.control.isSome = true) →
      ∀ ins ∈ exp.instructions, ins.name = "measure" →
        ∀ l, ins.memory = some l → ins.register = some (.idxList l)) ∧
    ((∀ opc ∈ c.data, opc.op.control = none) →
      ∀ ins ∈ exp.instructions,
        ins.mask = none ∧ ins.relation = none ∧ ins.val = none ∧
          ins.register = none) := by
  obtain ⟨res, hfold, hins, _⟩ := assembleExperiment_ok hok
  constructor
  · intro hcond
    have hic : isConditionalExperiment c = true := by
      unfold isConditionalExperiment
      rw [List.any_eq_true]
      obtain ⟨opc, hopc, hco⟩ := hcond
      exact ⟨opc, hopc, hco⟩
    rw [hins]
    refine foldlM_lowerOp_all
      (fun ins => ins.name = "measure" → ∀ l, ins.memory = some l →
        ins.register = some (.idxList l)) c.data ([], 0) res (by simp) ?_ hfold
    intro acc' opc' out' _ hstep ins hmem
    obtain ⟨ins0, _, _, _, _, _, hnone, hsome, _, _, hmeas, _, _⟩ :=
      lowerOp_ok_destruct hstep
    cases hoc : opc'.op.control with
    | none =>
      obtain ⟨hout, _⟩ := hnone hoc
      rw [hout] at hmem
      rcases List.mem_append.mp hmem with hmem | hmem
      · exact Or.inl hmem
      · right
        have he : ins = ins0 := by simpa using hmem
        rw [he]
        exact fun hname l hl => hmeas hname hic l hl
    | some rv =>
      obtain ⟨reg', v'⟩ := rv
      obtain ⟨hout, _⟩ := hsome reg' v' hoc
      rw [hout] at hmem
      rcases List.mem_append.mp hmem with hmem | hmem
      · exact Or.inl hmem
      · right
        rcases List.mem_cons.mp hmem with rfl | hmem
        · intro hname
          exact absurd hname (by simp [mkBfunc])
        · have he : ins = ins0 := by simpa using hmem
          rw [he]
          exact fun hname l hl => hmeas hname hic l hl
  · intro hnall
    have hic : isConditionalExperiment c = false := by
      unfold isConditionalExperiment
      rw [List.any_eq_false]
      intro opc hopc
      rw [hnall opc hopc]
      simp
    rw [hins]
    refine foldlM_lowerOp_all
      (fun ins => ins.mask = none ∧ ins.relation = none ∧ ins.val = none ∧
        ins.register = none) c.data ([], 0) res (by simp) ?_ hfold
    intro acc' opc' out' hopc' hstep ins hmem
    obtain ⟨ins0, _, _, hm0, hr0, hv0, hnone, _, _, hreg0, _, _, _⟩ :=
      lowerOp_ok_destruct hstep
    obtain ⟨hout, _⟩ := hnone (hnall opc' hopc')
    rw [hout] at hmem
    rcases List.mem_append.mp hmem with hmem | hmem
    · exact Or.inl hmem
    · right
      have he : ins = ins0 := by simpa using hmem
      rw [he]
      refine ⟨hm0, hr0, hv0, ?_⟩
      cases hr : ins0.register with
      | none => rfl
      | some rf =>
        obtain ⟨l0, _, _, _, hict⟩ := hreg0 rf hr
        rw [hic] at hict
        exact Bool.noConfusion hict

/-- Concrete check of `conditional_measure_register_spec` on a circuit with a
measurement and a conditional gate. -/
theorem conditional_measure_register_spec_witness :
    ∃ exp, assembleExperiment ⟨"c0", [], [⟨"c", 1⟩],
        [⟨⟨"measure", none⟩, [], [(⟨"c", 1⟩, 0)]⟩,
         ⟨⟨"x", some (⟨"c", 1⟩, 1)⟩, [], []⟩]⟩ = Except.ok exp ∧
      (((∃ opc ∈ ([⟨⟨"measure", none⟩, [], [(⟨"c", 1⟩, 0)]⟩,
            ⟨⟨"x", some (⟨"c", 1⟩, 1)⟩, [], []⟩] : List OpContext),
          opc.op.control.isSome = true) →
        ∀ ins ∈ exp.instructions, ins.name = "measure" →
          ∀ l, ins.memory = some l → ins.register = some (.idxList l)) ∧
      ((∀ opc ∈ ([⟨⟨"measure", none⟩, [], [(⟨"c", 1⟩, 0)]⟩,
            ⟨⟨"x", some (⟨"c", 1⟩, 1)⟩, [], []⟩] : List OpContext),
          opc.op.control = none) →
        ∀ ins ∈ exp.instructions,
          ins.mask = none ∧ ins.relation = none ∧ ins.val = none ∧
            ins.register = none)) :=
  ⟨_, rfl, conditional_measure_register_spec ⟨"c0", [], [⟨"c", 1⟩],
    [⟨⟨"measure", none⟩, [], [(⟨"c", 1⟩, 0)]⟩,
     ⟨⟨"x", some (⟨"c", 1⟩, 1)⟩, [], []⟩]⟩ _ rfl⟩

/-- Claim C3: the conditional-test slot indices of each experiment form the
contiguous strictly increasing range starting at that circuit's memory-slot
count, one per conditional operation, so no slot overlaps a declared
classical-bit index; the numbering restarts per circuit in the batch. -/
theorem conditional_slot_indices_spec (cs : List Circuit) (rc : Option RunConfig)
    (qid qh : String) (q : QasmQobj)
    (hok : assemble_circuits cs rc qid qh = .ok q) :
    q.experiments.length = cs.length ∧
    ∀ (i : Nat) (hi : i < cs.length) (hi' : i < q.experiments.length),
      condTestSlots (q.experiments.get ⟨i, hi'⟩).instructions =
        List.range' (totalSize (cs.get ⟨i, hi⟩).cregs)
          (countConditionals (cs.get ⟨i, hi⟩).data) ∧
      ∀ s ∈ condTestSlots (q.experiments.get ⟨i, hi'⟩).instructions,
        totalSize (cs.get ⟨i, hi⟩).cregs ≤ s := by
  obtain ⟨hmap, _⟩ := assemble_circuits_ok hok
  have hf := mapM_ok_forall₂ assembleExperiment hmap
  refine ⟨hf.length_eq.symm, ?_⟩
  intro i hi hi'
  have hexp := hf.get hi hi'
  obtain ⟨res, hfold, hins, _⟩ := assembleExperiment_ok hexp
  obtain ⟨hslots, _⟩ := foldlM_lowerOp_slots _ ([], 0) res hfold
  have hmain : condTestSlots (q.experiments.get ⟨i, hi'⟩).instructions =
      List.range' (totalSize (cs.get ⟨i, hi⟩).cregs)
        (countConditionals (cs.get ⟨i, hi⟩).data) := by
    rw [hins, hslots]
    simp [condTestSlots]
  refine ⟨hmain, ?_⟩
  intro s hs
  rw [hmain] at hs
  obtain ⟨k, _, hk⟩ := List.mem_range'.mp hs
  omega

/-- Concrete check of `conditional_slot_indices_spec` on a batch containing
the same one-conditional circuit twice. -/
theorem conditional_slot_indices_spec_witness :
    ∃ q, assemble_circuits
        [⟨"c0", [], [⟨"c", 1⟩], [⟨⟨"x", some (⟨"c", 1⟩, 1)⟩, [], []⟩]⟩,
         ⟨"c0", [], [⟨"c", 1⟩], [⟨⟨"x", some (⟨"c", 1⟩, 1)⟩, [], []⟩]⟩]
        none "qid" "qh" = .ok q ∧
      (q.experiments.length =
        ([⟨"c0", [], [⟨"c", 1⟩], [⟨⟨"x", some (⟨"c", 1⟩, 1)⟩, [], []⟩]⟩,
          ⟨"c0", [], [⟨"c", 1⟩], [⟨⟨"x", some (⟨"c", 1⟩, 1)⟩, [], []⟩]⟩] :
            List Circuit).length ∧
      ∀ (i : Nat)
        (hi : i < ([⟨"c0", [], [⟨"c", 1⟩], [⟨⟨"x", some (⟨"c", 1⟩, 1)⟩, [], []⟩]⟩,
          ⟨"c0", [], [⟨"c", 1⟩], [⟨⟨"x", some (⟨"c", 1⟩, 1)⟩, [], []⟩]⟩] :
            List Circuit).length)
        (hi' : i < q.experiments.length),
        condTestSlots (q.experiments.get ⟨i, hi'⟩).instructions =
          List.range'
            (totalSize (([⟨"c0", [], [⟨"c", 1⟩], [⟨⟨"x", some (⟨"c", 1⟩, 1)⟩, [], []⟩]⟩,
              ⟨"c0", [], [⟨"c", 1⟩], [⟨⟨"x", some (⟨"c", 1⟩, 1)⟩, [], []⟩]⟩] :
                List Circuit).get ⟨i, hi⟩).cregs)
            (countConditionals (([⟨"c0", [], [⟨"c", 1⟩],
                [⟨⟨"x", some (⟨"c", 1⟩, 1)⟩, [], []⟩]⟩,
              ⟨"c0", [], [⟨"c", 1⟩], [⟨⟨"x", some (⟨"c", 1⟩, 1)⟩, [], []⟩]⟩] :
                List Circuit).get ⟨i, hi⟩).data) ∧
        ∀ s ∈ condTestSlots (q.experiments.get ⟨i, hi'⟩).instructions,
          totalSize (([⟨"c0", [], [⟨"c", 1⟩], [⟨⟨"x", some (⟨"c", 1⟩, 1)⟩, [], []⟩]⟩,
            ⟨"c0", [], [⟨"c", 1⟩], [⟨⟨"x", some (⟨"c", 1⟩, 1)⟩, [], []⟩]⟩] :
              List Circuit).get ⟨i, hi⟩).cregs ≤ s) :=
  ⟨_, rfl, conditional_slot_indices_spec
    [⟨"c0", [], [⟨"c", 1⟩], [⟨⟨"x", some (⟨"c", 1⟩, 1)⟩, [], []⟩]⟩,
     ⟨"c0", [], [⟨"c", 1⟩], [⟨⟨"x", some (⟨"c", 1⟩, 1)⟩, [], []⟩]⟩]
    none "qid" "qh" _ rfl⟩

/-- Claim C4: the bundle config carries the caller-supplied run configuration
verbatim except that `n_qubits` and `memory_slots` are always overwritten by
the maxima of the per-experiment counts, so they are never smaller than any
single experiment's corresponding field. -/
theorem bundle_config_maxima_spec (cs : List Circuit) (rc : Option RunConfig)
    (qid qh : String) (q : QasmQobj)
    (hok : assemble_circuits cs rc qid qh = .ok q) :
    q.config.other = (configOfRun rc).other ∧
    q.config.n_qubits = some (q.experiments.foldl
      (fun m e => if e.config.n_qubits > m then e.config.n_qubits else m) 0) ∧
    q.config.memory_slots = some (q.experiments.foldl
      (fun m e => if e.config.memory_slots > m then e.config.memory_slots else m) 0) ∧
    ∀ e ∈ q.experiments,
      (∀ mq, q.config.n_qubits = some mq → e.config.n_qubits ≤ mq) ∧
      (∀ mm, q.config.memory_slots = some mm → e.config.memory_slots ≤ mm) := by
  obtain ⟨hmap, _, _, hnq, hms, hother⟩ := assemble_circuits_ok hok
  have hf := mapM_ok_forall₂ assembleExperiment hmap
  have hfq : List.Forall₂
      (fun (c : Circuit) (e : QasmQobjExperiment) => totalSize c.qregs = e.config.n_qubits)
      cs q.experiments := by
    refine hf.imp ?_
    intro c e hce
    obtain ⟨_, _, _, _, _, _, _, _, _, _, hcfg, _⟩ := assembleExperiment_ok hce
    exact hcfg.symm
  have hfm : List.Forall₂
      (fun (c : Circuit) (e : QasmQobjExperiment) => totalSize c.cregs = e.config.memory_slots)
      cs q.experiments := by
    refine hf.imp ?_
    intro c e hce
    obtain ⟨_, _, _, _, _, _, _, _, _, _, _, hcfg⟩ := assembleExperiment_ok hce
    exact hcfg.symm
  have hmaxq : maxNQubits cs = q.experiments.foldl
      (fun m e => if e.config.n_qubits > m then e.config.n_qubits else m) 0 := by
    unfold maxNQubits
    exact foldl_max_congr (fun (c : Circuit) => totalSize c.qregs)
      (fun (e : QasmQobjExperiment) => e.config.n_qubits) hfq 0
  have hmaxm : maxMemorySlots cs = q.experiments.foldl
      (fun m e => if e.config.memory_slots > m then e.config.memory_slots else m) 0 := by
    unfold maxMemorySlots
    exact foldl_max_congr (fun (c : Circuit) => totalSize c.cregs)
      (fun (e : QasmQobjExperiment) => e.config.memory_slots) hfm 0
  refine ⟨hother, by rw [hnq, hmaxq], by rw [hms, hmaxm], ?_⟩
  intro e he
  constructor
  · intro mq hmq
    rw [hnq, hmaxq] at hmq
    injection hmq with hmq
    rw [← hmq]
    exact (le_foldl_max (fun e => e.config.n_qubits) q.experiments 0).1 e he
  · intro mm hmm
    rw [hms, hmaxm] at hmm
    injection hmm with hmm
    rw [← hmm]
    exact (le_foldl_max (fun e => e.config.memory_slots) q.experiments 0).1 e he

/-- Concrete check of `bundle_config_maxima_spec` on a two-circuit batch with
a caller-supplied run configuration whose sizing fields are overwritten. -/
theorem bundle_config_maxima_spec_witness :
    ∃ q, assemble_circuits
        [⟨"A", [⟨"q", 2⟩], [⟨"c", 2⟩], []⟩, ⟨"B", [⟨"q", 3⟩], [⟨"c", 1⟩], []⟩]
        (some ⟨some 99, some 77, [("shots", "1024")]⟩) "qid" "qh" = .ok q ∧
      (q.config.other = [("shots", "1024")] ∧
      q.config.n_qubits = some (q.experiments.foldl
        (fun m e => if e.config.n_qubits > m then e.config.n_qubits else m) 0) ∧
      q.config.memory_slots = some (q.experiments.foldl
        (fun m e => if e.config.memory_slots > m then e.config.memory_slots else m) 0) ∧
      ∀ e ∈ q.experiments,
        (∀ mq, q.config.n_qubits = some mq → e.config.n_qubits ≤ mq) ∧
        (∀ mm, q.config.memory_slots = some mm → e.config.memory_slots ≤ mm)) :=
  ⟨_, rfl, bundle_config_maxima_spec
    [⟨"A", [⟨"q", 2⟩], [⟨"c", 2⟩], []⟩, ⟨"B", [⟨"q", 3⟩], [⟨"c", 1⟩], []⟩]
    (some ⟨some 99, some 77, [("shots", "1024")]⟩) "qid" "qh" _ rfl⟩

/-- Claim C7: a batch containing an operation referencing a qubit or classical
bit absent from its own circuit's flat address table never assembles to a
bundle: the whole batch aborts with an error. -/
theorem bad_reference_aborts_spec (cs : List Circuit) (rc : Option RunConfig)
    (qid qh : String)
    (hbad : ∃ c ∈ cs, ∃ opc ∈ c.data,
      (∃ qb ∈ opc.qargs, ((qb.1.name, qb.2) : Label) ∉ buildLabels c.qregs) ∨
      (∃ cb ∈ opc.cargs, ((cb.1.name, cb.2) : Label) ∉ buildLabels c.cregs)) :
    ∀ q, assemble_circuits cs rc qid qh ≠ .ok q := by
  intro q hok
  obtain ⟨c, hc, opc, hopc, hbadref⟩ := hbad
  obtain ⟨hmap, _⟩ := assemble_circuits_ok hok
  have hf := mapM_ok_forall₂ assembleExperiment hmap
  obtain ⟨exp, _, hexp⟩ := forall₂_mem_left hf c hc
  obtain ⟨res, hfold, _⟩ := assembleExperiment_ok hexp
  obtain ⟨acc', out', hstep⟩ := foldlM_lowerOp_mem c.data ([], 0) res hfold opc hopc
  obtain ⟨ins, _, _, _, _, _, _, _, _, _, _, hqlook, hclook⟩ := lowerOp_ok_destruct hstep
  rcases hbadref with ⟨qb, hqb, hnotin⟩ | ⟨cb, hcb, hnotin⟩
  · obtain ⟨idxs, hmapq⟩ := hqlook (List.isEmpty_eq_false.mpr (List.ne_nil_of_mem hqb))
    have hforall := mapM_ok_forall₂ _ hmapq
    obtain ⟨j, _, hlook⟩ := forall₂_mem_left hforall qb hqb
    exact hnotin (lookupIdx_ok_mem hlook).1
  · obtain ⟨idxs, hmapc⟩ := hclook (List.isEmpty_eq_false.mpr (List.ne_nil_of_mem hcb))
    have hforall := mapM_ok_forall₂ _ hmapc
    obtain ⟨j, _, hlook⟩ := forall₂_mem_left hforall cb hcb
    exact hnotin (lookupIdx_ok_mem hlook).1

/-- Concrete check of `bad_reference_aborts_spec`: an operation referencing
`q[0]` in a circuit with no quantum registers. -/
theorem bad_reference_aborts_spec_witness :
    (∃ c ∈ ([⟨"bad", [], [], [⟨⟨"h", none⟩, [(⟨"q", 1⟩, 0)], []⟩]⟩] : List Circuit),
      ∃ opc ∈ c.data,
        (∃ qb ∈ opc.qargs, ((qb.1.name, qb.2) : Label) ∉ buildLabels c.qregs) ∨
        (∃ cb ∈ opc.cargs, ((cb.1.name, cb.2) : Label) ∉ buildLabels c.cregs)) ∧
    ∀ q, assemble_circuits [⟨"bad", [], [], [⟨⟨"h", none⟩, [(⟨"q", 1⟩, 0)], []⟩]⟩]
        none "qid" "qh" ≠ .ok q :=
  ⟨by decide, bad_reference_aborts_spec _ none "qid" "qh" (by decide)⟩
